import Mathlib

/-!
Shallow embedding of the Minesweeper inference engine
(`projects/2023/x/minesweeper/minesweeper.py`, classes `Sentence` and
`MinesweeperAI`, plus the `nearby_mines` board query of `Minesweeper`).

Modelling conventions:
* a board cell is an integer pair `(row, column)`; Python ints are `ℤ`;
* Python `set` becomes `Finset`; iteration over a Python set (whose order is
  unspecified) becomes a fold over `cellList`, a sorted enumeration, and every
  property proved below is established by induction over an arbitrary
  enumeration list, so it does not depend on the chosen order;
* mutation of `self` becomes explicit state passing: each method returns the
  updated `Sentence` / `AIState`;
* `random.choice` becomes an explicit selection function
  `choice : List Cell → Cell`, constrained in theorems to pick an element of a
  nonempty list;
* Python `None` results become `none : Option _`.
-/

/-- A board cell: an integer coordinate pair (row, column). -/
abbrev Cell : Type := ℤ × ℤ

/-- Embedding of class `Sentence`: the field `cells` is `self.cells`, the field
`count` is `self.count`.  Equality of sentences is componentwise, exactly as
`Sentence.__eq__` compares `cells` and `count`. -/
structure Sentence where
  cells : Finset Cell
  count : ℤ
deriving DecidableEq

/-- Embedding of `Sentence.known_mines`: Python returns a generator over
`self.cells` when `self.count == len(self.cells)` and (implicitly) `None`
otherwise.  The generator is modelled as `some` of the finset of cells it
yields, the implicit `None` as `none`. -/
def Sentence.known_mines (s : Sentence) : Option (Finset Cell) :=
  if s.count = (s.cells.card : ℤ) then some s.cells else none

/-- Embedding of `Sentence.known_safes`: a generator over `self.cells` when
`self.count == 0`, and `None` otherwise. -/
def Sentence.known_safes (s : Sentence) : Option (Finset Cell) :=
  if s.count = 0 then some s.cells else none

/-- Embedding of `Sentence.mark_mine`: `if cell in self.cells and self.count > 0`
then remove the cell and decrement the count, else leave the sentence as is. -/
def Sentence.mark_mine (s : Sentence) (cell : Cell) : Sentence :=
  if cell ∈ s.cells ∧ 0 < s.count then ⟨s.cells.erase cell, s.count - 1⟩ else s

/-- Embedding of `Sentence.mark_safe`: `if cell in self.cells and self.count > 0`
then remove the cell (count unchanged), else leave the sentence as is. -/
def Sentence.mark_safe (s : Sentence) (cell : Cell) : Sentence :=
  if cell ∈ s.cells ∧ 0 < s.count then ⟨s.cells.erase cell, s.count⟩ else s

/-- Embedding of the `MinesweeperAI` state: board dimensions and the four
mutable attributes `moves_made`, `safes`, `mines`, `knowledge`. -/
structure AIState where
  height : ℤ
  width : ℤ
  moves_made : Finset Cell
  safes : Finset Cell
  mines : Finset Cell
  knowledge : List Sentence
deriving DecidableEq

/-- Embedding of `MinesweeperAI.__init__(height, width)`: empty sets, empty
knowledge list. -/
def initAI (h w : ℤ) : AIState :=
  ⟨h, w, ∅, ∅, ∅, []⟩

/-- Embedding of `MinesweeperAI._get_all_cells`: all cells `(i, j)` with
`i in range(height)` and `j in range(width)`. -/
def boardCells (h w : ℤ) : Finset Cell :=
  Finset.Icc 0 (h - 1) ×ˢ Finset.Icc 0 (w - 1)

/-- Embedding of `MinesweeperAI._get_surrounding_cells`: rows range over
`range(max(0, r-1), min(height, r+1) + 1)` and columns over
`range(max(0, c-1), min(width, c+1) + 1)` (both bounds inclusive, hence the
`Finset.Icc`), with the cell itself excluded.  Note the source clips the upper
bounds at `height` / `width` themselves, not at `height - 1` / `width - 1`. -/
def getSurroundingCells (h w : ℤ) (cell : Cell) : Finset Cell :=
  (Finset.Icc (max 0 (cell.1 - 1)) (min h (cell.1 + 1)) ×ˢ
    Finset.Icc (max 0 (cell.2 - 1)) (min w (cell.2 + 1))).erase cell

/-- Embedding of `Minesweeper.nearby_mines` applied to a board whose mine set is
`M`: the cells of the 3×3 window around `cell`, the cell itself excluded, that
are in bounds (`0 <= i < height and 0 <= j < width`) and hold a mine. -/
def nearbySet (h w : ℤ) (M : Finset Cell) (cell : Cell) : Finset Cell :=
  ((Finset.Icc (cell.1 - 1) (cell.1 + 1) ×ˢ
      Finset.Icc (cell.2 - 1) (cell.2 + 1)).erase cell).filter
    (fun p => 0 ≤ p.1 ∧ p.1 < h ∧ 0 ≤ p.2 ∧ p.2 < w ∧ p ∈ M)

/-- The count returned by `Minesweeper.nearby_mines`. -/
def nearbyMines (h w : ℤ) (M : Finset Cell) (cell : Cell) : ℤ :=
  ((nearbySet h w M cell).card : ℤ)

/-- Lexicographic order on cells, used to enumerate a `Finset Cell` as a list.
Python iterates a `set` in unspecified order; all fold lemmas below are proved
for an arbitrary enumeration list, so nothing depends on this choice. -/
def cellLe (a b : Cell) : Prop :=
  a.1 < b.1 ∨ (a.1 = b.1 ∧ a.2 ≤ b.2)

instance : DecidableRel cellLe := fun a b =>
  inferInstanceAs (Decidable (a.1 < b.1 ∨ (a.1 = b.1 ∧ a.2 ≤ b.2)))

instance : IsTrans Cell cellLe := by
  constructor; intro a b c hab hbc; unfold cellLe at *; omega

instance : IsAntisymm Cell cellLe := by
  constructor; intro a b hab hba; unfold cellLe at *
  have h1 : a.1 = b.1 := by omega
  have h2 : a.2 = b.2 := by omega
  exact Prod.ext h1 h2

instance : IsTotal Cell cellLe := by
  constructor; intro a b; unfold cellLe; omega

/-- The enumeration of a finite set of cells used to model Python set
iteration: the underlying multiset sorted by `cellLe` (insertion sort is used
because it reduces inside the kernel, which lets concrete states be evaluated
by `decide`). -/
def cellList (s : Finset Cell) : List Cell :=
  Quot.liftOn s.val (fun l => l.insertionSort cellLe) fun _ _ h =>
    List.eq_of_perm_of_sorted
      ((List.perm_insertionSort cellLe _).trans
        (h.trans (List.perm_insertionSort cellLe _).symm))
      (List.sorted_insertionSort cellLe _) (List.sorted_insertionSort cellLe _)

/-- Membership in the enumeration agrees with membership in the set. -/
lemma mem_cellList {a : Cell} {s : Finset Cell} : a ∈ cellList s ↔ a ∈ s := by
  rcases s with ⟨val, hnd⟩
  induction val using Quot.inductionOn with
  | h l =>
    show a ∈ l.insertionSort cellLe ↔ _
    rw [(List.perm_insertionSort cellLe l).mem_iff]
    rfl

/-- The enumeration has no duplicates. -/
lemma cellList_nodup (s : Finset Cell) : (cellList s).Nodup := by
  rcases s with ⟨val, hnd⟩
  induction val using Quot.inductionOn with
  | h l =>
    exact (List.perm_insertionSort cellLe l).symm.nodup hnd

/-- One iteration of the `for surr_cell in surr_cells` loop in the `count == 0`
branch of `add_knowledge`: `new_sentence.mark_safe(surr_cell)`,
`self.safes.add(surr_cell)`, and removal of `surr_cell` from `self.mines` when
present.  The components are (sentence, safes, mines). -/
def zeroStep (p : Sentence × Finset Cell × Finset Cell) (c : Cell) :
    Sentence × Finset Cell × Finset Cell :=
  (p.1.mark_safe c, insert c p.2.1, p.2.2.erase c)

/-- One iteration of the `for surr_cell in surr_cells` loop in the
`count == len(surr_cells)` branch of `add_knowledge`:
`new_sentence.mark_mine(surr_cell)` and `self.mines.add(surr_cell)`.
The components are (sentence, mines). -/
def fullStep (p : Sentence × Finset Cell) (c : Cell) : Sentence × Finset Cell :=
  (p.1.mark_mine c, insert c p.2)

/-- One iteration of the `for safe in self.safes` loop of
`MinesweeperAI._update_sentence`: remove `safe` from the copied sentence's
cells if present; then, if the remaining cell count equals the sentence count
and is positive, add every remaining cell to `self.mines` and remove each from
the copy, decrementing its count once per removal.  The components are
(copied sentence, mines). -/
def updSafeStep (p : Sentence × Finset Cell) (safe : Cell) :
    Sentence × Finset Cell :=
  if ((p.1.cells.erase safe).card : ℤ) = p.1.count ∧ 0 < (p.1.cells.erase safe).card then
    (⟨∅, p.1.count - ((p.1.cells.erase safe).card : ℤ)⟩, p.2 ∪ p.1.cells.erase safe)
  else
    (⟨p.1.cells.erase safe, p.1.count⟩, p.2)

/-- One iteration of the `for mine in self.mines` loop of
`MinesweeperAI._update_sentence`: if `mine` is in the copied sentence's cells,
remove it and decrement the count; if the count thereby reaches `0` while cells
remain, add every remaining cell to `self.safes`.  The components are
(copied sentence, safes). -/
def updMineStep (p : Sentence × Finset Cell) (mine : Cell) :
    Sentence × Finset Cell :=
  if mine ∈ p.1.cells then
    if p.1.count - 1 = 0 ∧ 0 < (p.1.cells.erase mine).card then
      (⟨p.1.cells.erase mine, p.1.count - 1⟩, p.2 ∪ p.1.cells.erase mine)
    else (⟨p.1.cells.erase mine, p.1.count - 1⟩, p.2)
  else p

/-- The first loop of `_update_sentence` (`for safe in self.safes`), starting
from the fresh copy of the sentence and the solver's current mines. -/
def updSafeLoop (st : AIState) (sentence : Sentence) : Sentence × Finset Cell :=
  (cellList st.safes).foldl updSafeStep (sentence, st.mines)

/-- The second loop of `_update_sentence` (`for mine in self.mines`), starting
from the copy and mines left by the first loop (`r1`) and from the solver's
current safes. -/
def updMineLoop (st : AIState) (r1 : Sentence × Finset Cell) :
    Sentence × Finset Cell :=
  (cellList r1.2).foldl updMineStep (r1.1, st.safes)

/-- Embedding of `MinesweeperAI._update_sentence`.  The Python method works on
`deepcopy(sentence)`, so the stored sentence is never modified; only
`self.mines` (first loop) and `self.safes` (second loop) change.  The outer
guard compares the copy's count (equal to `sentence.count` at that point) and
the original sentence's number of cells.  The second loop runs over
`self.mines` as updated by the first loop. -/
def updateSentence (st : AIState) (sentence : Sentence) : AIState :=
  if 0 < sentence.count ∧ 0 < sentence.cells.card then
    { st with
        mines := (updSafeLoop st sentence).2
        safes := (updMineLoop st (updSafeLoop st sentence)).2 }
  else st

/-- The sentence constructed by `add_knowledge` before being appended to the
knowledge base: `Sentence(self._get_surrounding_cells(cell), count)`. -/
def newSentenceOf (st : AIState) (cell : Cell) (n : ℤ) : Sentence :=
  ⟨getSurroundingCells st.height st.width cell, n⟩

/-- The `count == 0` branch of `add_knowledge`, acting on the new sentence and
on `self.safes` (which already holds `cell`) and `self.mines`; when `n ≠ 0` the
branch does not run.  Its components are (sentence, safes, mines). -/
def zeroLoop (st : AIState) (cell : Cell) (n : ℤ) :
    Sentence × Finset Cell × Finset Cell :=
  if n = 0 then
    (cellList (getSurroundingCells st.height st.width cell)).foldl zeroStep
      (newSentenceOf st cell n, insert cell st.safes, st.mines)
  else
    (newSentenceOf st cell n, insert cell st.safes, st.mines)

/-- The `count == len(surr_cells)` branch of `add_knowledge`, fed by the state
the `count == 0` branch leaves behind; its components are (sentence, mines). -/
def fullLoop (st : AIState) (cell : Cell) (n : ℤ) : Sentence × Finset Cell :=
  if n = ((getSurroundingCells st.height st.width cell).card : ℤ) then
    (cellList (getSurroundingCells st.height st.width cell)).foldl fullStep
      ((zeroLoop st cell n).1, (zeroLoop st cell n).2.2)
  else
    ((zeroLoop st cell n).1, (zeroLoop st cell n).2.2)

/-- Embedding of `MinesweeperAI.add_knowledge` up to (and including) the two
special-count branches, i.e. everything before the final
`for sentence in self.knowledge` propagation loop.  The new sentence is
appended to `knowledge`; since Python appends the object before the branches
mutate it in place, the list here receives the sentence as it stands after the
branches, which is the same object. -/
def addKnowledgeBase (st : AIState) (cell : Cell) (n : ℤ) : AIState :=
  { st with
      moves_made := insert cell st.moves_made
      safes := (zeroLoop st cell n).2.1
      mines := (fullLoop st cell n).2
      knowledge := st.knowledge ++ [(fullLoop st cell n).1] }

/-- Embedding of the final loop of `add_knowledge`:
`for sentence in self.knowledge: self._update_sentence(sentence)`.  The list
itself is not modified by `_update_sentence`, so the loop is a fold over the
knowledge list present when the loop starts. -/
def propagate (st : AIState) : AIState :=
  st.knowledge.foldl updateSentence st

/-- Embedding of the whole of `MinesweeperAI.add_knowledge`. -/
def addKnowledge (st : AIState) (cell : Cell) (n : ℤ) : AIState :=
  propagate (addKnowledgeBase st cell n)

/-- A sequence of `add_knowledge` calls, in order. -/
def runGame (st : AIState) (calls : List (Cell × ℤ)) : AIState :=
  calls.foldl (fun s p => addKnowledge s p.1 p.2) st

/-- Embedding of `MinesweeperAI.make_safe_move`.  The candidate list collects
the board cells that are not in `moves_made` and are in `safes`; the method
returns `None` when the list is empty and `random.choice(save_moves)`
otherwise, and it never writes to `self`, which the state component of the
result records.  `choice` stands for `random.choice`. -/
def makeSafeMove (choice : List Cell → Cell) (st : AIState) :
    Option Cell × AIState :=
  let saveMoves := (cellList (boardCells st.height st.width)).filter
    (fun c => decide (c ∉ st.moves_made ∧ c ∈ st.safes))
  (if saveMoves = [] then none else some (choice saveMoves), st)

/-- Embedding of `MinesweeperAI.make_random_move`: when `make_safe_move()`
returns `None`, choose among board cells outside `moves_made` and outside
`mines` (or return `None` when there are none); when `make_safe_move()` finds a
move, the Python function falls through and implicitly returns `None`. -/
def makeRandomMove (choice : List Cell → Cell) (st : AIState) : Option Cell :=
  if (makeSafeMove choice st).1 = none then
    let potentialMoves := (cellList (boardCells st.height st.width)).filter
      (fun c => decide (c ∉ st.moves_made ∧ c ∉ st.mines))
    if potentialMoves = [] then none else some (choice potentialMoves)
  else none

/-- A sentence is true of a mine set `M` when exactly `count` of its cells lie
in `M`.  Every sentence the solver stores is true of the board's mine set when
the reported counts come from that board. -/
def SentTrue (M : Finset Cell) (s : Sentence) : Prop :=
  ((s.cells ∩ M).card : ℤ) = s.count

/-- The soundness invariant tying a solver state to the board's mine set `M`:
no known-safe cell is a mine, every known-mine cell is a mine, and every stored
sentence is true of `M`. -/
def SolverInv (M : Finset Cell) (st : AIState) : Prop :=
  st.safes ∩ M = ∅ ∧ st.mines ⊆ M ∧ ∀ s ∈ st.knowledge, SentTrue M s

/-- A call `add_knowledge(cell, n)` is consistent with a board whose mine set
is `M` when the cell is an in-bounds non-mine cell and `n` is the adjacent mine
count the board reports for it (`Minesweeper.nearby_mines`). -/
def ConsistentCall (h w : ℤ) (M : Finset Cell) (cell : Cell) (n : ℤ) : Prop :=
  cell ∈ boardCells h w ∧ cell ∉ M ∧ n = nearbyMines h w M cell

instance (h w : ℤ) (M : Finset Cell) (cell : Cell) (n : ℤ) :
    Decidable (ConsistentCall h w M cell n) :=
  inferInstanceAs
    (Decidable (cell ∈ boardCells h w ∧ cell ∉ M ∧ n = nearbyMines h w M cell))

/-- The neighbor set described by the specification: the positions within
Chebyshev distance 1 of `cell`, excluding `cell` itself, clipped to board
bounds (`row ∈ [0, height)`, `column ∈ [0, width)`) and not already revealed
(not in `moves`).  This definition follows the specification's words and is
compared against `getSurroundingCells`, which embeds the source. -/
def specUnrevealedNeighbors (h w : ℤ) (moves : Finset Cell) (cell : Cell) :
    Finset Cell :=
  ((Finset.Icc (cell.1 - 1) (cell.1 + 1) ×ˢ
      Finset.Icc (cell.2 - 1) (cell.2 + 1)).erase cell).filter
    (fun p => 0 ≤ p.1 ∧ p.1 < h ∧ 0 ≤ p.2 ∧ p.2 < w ∧ p ∉ moves)

/-- A concrete selection function standing in for `random.choice` in witness
statements: the head of the list. -/
def hdChoice : List Cell → Cell :=
  fun l => l.headD (0, 0)

/-!  Theorems.  Each claim of the specification is settled by exactly one
theorem below, with counterexamples and witnesses as separate closed
statements. -/

/-- Claim C3 (amended): starting from a sentence with `0 ≤ count ≤ |cells|`,
the invariant still holds after `mark_mine(c)` for every cell `c`; it holds
after `mark_safe(c)` whenever `count < |cells|` or `c ∉ cells` (the source's
`mark_safe` removes a cell without touching `count`, so the one remaining case
`c ∈ cells` with `0 < count = |cells|` breaks the upper bound). -/
theorem claim_C3 (s : Sentence) (c : Cell)
    (h0 : 0 ≤ s.count) (h1 : s.count ≤ (s.cells.card : ℤ)) :
    (0 ≤ (s.mark_mine c).count ∧
      (s.mark_mine c).count ≤ ((s.mark_mine c).cells.card : ℤ)) ∧
    (s.count < (s.cells.card : ℤ) ∨ c ∉ s.cells →
      0 ≤ (s.mark_safe c).count ∧
        (s.mark_safe c).count ≤ ((s.mark_safe c).cells.card : ℤ)) := by
  constructor
  · unfold Sentence.mark_mine
    split_ifs with h
    · have hc := Finset.card_erase_of_mem h.1
      have hpos := Finset.card_pos.mpr ⟨c, h.1⟩
      simp only [hc]
      constructor
      · omega
      · have : ((s.cells.card - 1 : ℕ) : ℤ) = (s.cells.card : ℤ) - 1 := by omega
        omega
    · exact ⟨h0, h1⟩
  · intro hside
    unfold Sentence.mark_safe
    split_ifs with h
    · have hc := Finset.card_erase_of_mem h.1
      have hpos := Finset.card_pos.mpr ⟨c, h.1⟩
      have hlt : s.count < (s.cells.card : ℤ) := by
        rcases hside with hside | hside
        · exact hside
        · exact absurd h.1 hside
      simp only [hc]
      constructor
      · omega
      · have : ((s.cells.card - 1 : ℕ) : ℤ) = (s.cells.card : ℤ) - 1 := by omega
        omega
    · exact ⟨h0, h1⟩

/-- Counterexample to claim C3 as stated: the sentence `{(0,0)} = 1` satisfies
`0 ≤ count ≤ |cells|`, but after `mark_safe((0,0))` the cell is removed while
the count stays `1`, leaving `count = 1 > 0 = |cells|`. -/
theorem claim_C3_counterexample :
    (0 ≤ (⟨{((0, 0) : Cell)}, 1⟩ : Sentence).count ∧
      (⟨{((0, 0) : Cell)}, 1⟩ : Sentence).count ≤
        (((⟨{((0, 0) : Cell)}, 1⟩ : Sentence).cells.card : ℤ))) ∧
    ¬ (0 ≤ ((⟨{((0, 0) : Cell)}, 1⟩ : Sentence).mark_safe (0, 0)).count ∧
        ((⟨{((0, 0) : Cell)}, 1⟩ : Sentence).mark_safe (0, 0)).count ≤
          ((((⟨{((0, 0) : Cell)}, 1⟩ : Sentence).mark_safe (0, 0)).cells.card : ℤ))) := by
  decide

/-- Witness for claim C3 at the sentence `{(0,0),(0,1)} = 1` and cell
`(0,0)`. -/
theorem claim_C3_witness :
    0 ≤ ((⟨{((0, 0) : Cell), (0, 1)}, 1⟩ : Sentence).mark_mine (0, 0)).count ∧
      ((⟨{((0, 0) : Cell), (0, 1)}, 1⟩ : Sentence).mark_mine (0, 0)).count ≤
        ((((⟨{((0, 0) : Cell), (0, 1)}, 1⟩ : Sentence).mark_mine (0, 0)).cells.card : ℤ)) :=
  (claim_C3 ⟨{((0, 0) : Cell), (0, 1)}, 1⟩ (0, 0) (by decide) (by decide)).1

/-- Claim C5 (amended): `mark_safe(c)` removes `c` and leaves the count
unchanged when `c ∈ cells` and `count > 0`; when `c ∉ cells` or `count ≤ 0` it
changes nothing.  The source guards the removal with `self.count > 0`, so a
cell of a zero-count sentence is not removed. -/
theorem claim_C5 (s : Sentence) (c : Cell) :
    (c ∈ s.cells ∧ 0 < s.count →
      s.mark_safe c = ⟨s.cells.erase c, s.count⟩) ∧
    (c ∉ s.cells ∨ s.count ≤ 0 → s.mark_safe c = s) := by
  constructor
  · intro h
    unfold Sentence.mark_safe
    rw [if_pos h]
  · intro h
    unfold Sentence.mark_safe
    rw [if_neg]
    rintro ⟨hc, hpos⟩
    rcases h with h | h
    · exact h hc
    · omega

/-- Counterexample to claim C5 as stated: for the sentence `{(0,0)} = 0` the
cell `(0,0)` is in `cells`, yet `mark_safe((0,0))` does not remove it. -/
theorem claim_C5_counterexample :
    ((0, 0) : Cell) ∈ (⟨{((0, 0) : Cell)}, 0⟩ : Sentence).cells ∧
    ((0, 0) : Cell) ∈ ((⟨{((0, 0) : Cell)}, 0⟩ : Sentence).mark_safe (0, 0)).cells := by
  decide

/-- Witness for claim C5 at the sentence `{(0,0)} = 1` and cell `(0,0)`. -/
theorem claim_C5_witness :
    (⟨{((0, 0) : Cell)}, 1⟩ : Sentence).mark_safe (0, 0) =
      ⟨({((0, 0) : Cell)} : Finset Cell).erase (0, 0), 1⟩ :=
  (claim_C5 ⟨{((0, 0) : Cell)}, 1⟩ (0, 0)).1 (by decide)

/-- Claim C7 (amended): for a sentence with `count = 0` and nonempty `cells`,
`known_safes()` is the full cell set and `known_mines()` is the no-conclusion
result `none`; for the empty sentence `⟨∅, 0⟩`, `known_safes()` is still the
full (empty) cell set but `known_mines()` is `some ∅` (an empty generator),
not `none`, because `count == len(cells)` holds trivially.  `known_mines()`
yields a non-empty set exactly when `count = |cells| > 0`. -/
theorem claim_C7 (s : Sentence) :
    (s.count = 0 →
      s.known_safes = some s.cells ∧
      (s.cells.Nonempty → s.known_mines = none) ∧
      (s.cells = ∅ → s.known_mines = some ∅)) ∧
    (∀ m : Finset Cell, s.known_mines = some m → m.Nonempty →
      s.count = (s.cells.card : ℤ) ∧ 0 < s.count) := by
  constructor
  · intro h0
    refine ⟨?_, ?_, ?_⟩
    · unfold Sentence.known_safes
      rw [if_pos h0]
    · intro hne
      unfold Sentence.known_mines
      rw [if_neg]
      intro hc
      rw [h0] at hc
      have := Finset.card_pos.mpr hne
      omega
    · intro he
      unfold Sentence.known_mines
      rw [if_pos (by rw [h0, he]; simp)]
      rw [he]
  · intro m hm hne
    unfold Sentence.known_mines at hm
    by_cases hc : s.count = (s.cells.card : ℤ)
    · rw [if_pos hc] at hm
      have hms : m = s.cells := by injection hm with h; exact h.symm
      rw [hms] at hne
      have := Finset.card_pos.mpr hne
      omega
    · rw [if_neg hc] at hm
      exact absurd hm (by simp)

/-- Counterexample to claim C7 as stated: the empty sentence `⟨∅, 0⟩` has
`count = 0`, but `known_mines()` returns the empty generator (`some ∅`),
not the no-conclusion result `none`. -/
theorem claim_C7_counterexample :
    (⟨(∅ : Finset Cell), 0⟩ : Sentence).count = 0 ∧
    (⟨(∅ : Finset Cell), 0⟩ : Sentence).known_mines = some ∅ ∧
    (⟨(∅ : Finset Cell), 0⟩ : Sentence).known_mines ≠ none := by
  decide

/-- Witness for claim C7 at the sentence `{(0,0)} = 0`. -/
theorem claim_C7_witness :
    (⟨{((0, 0) : Cell)}, 0⟩ : Sentence).known_safes = some {((0, 0) : Cell)} ∧
      (⟨{((0, 0) : Cell)}, 0⟩ : Sentence).known_mines = none :=
  ⟨((claim_C7 ⟨{((0, 0) : Cell)}, 0⟩).1 (by decide)).1,
    ((claim_C7 ⟨{((0, 0) : Cell)}, 0⟩).1 (by decide)).2.1 (by decide)⟩

/-- Framing of `_update_sentence`: it never touches `moves_made`, `knowledge`,
or the board dimensions. -/
lemma updateSentence_frame (st : AIState) (s : Sentence) :
    (updateSentence st s).moves_made = st.moves_made ∧
    (updateSentence st s).knowledge = st.knowledge ∧
    (updateSentence st s).height = st.height ∧
    (updateSentence st s).width = st.width := by
  unfold updateSentence
  split_ifs <;> exact ⟨rfl, rfl, rfl, rfl⟩

/-- Framing of the propagation fold. -/
lemma foldl_updateSentence_frame (L : List Sentence) (st : AIState) :
    (L.foldl updateSentence st).moves_made = st.moves_made ∧
    (L.foldl updateSentence st).knowledge = st.knowledge ∧
    (L.foldl updateSentence st).height = st.height ∧
    (L.foldl updateSentence st).width = st.width := by
  induction L generalizing st with
  | nil => exact ⟨rfl, rfl, rfl, rfl⟩
  | cons a t ih =>
    simp only [List.foldl_cons]
    have h1 := updateSentence_frame st a
    have h2 := ih (updateSentence st a)
    exact ⟨h2.1.trans h1.1, h2.2.1.trans h1.2.1,
      h2.2.2.1.trans h1.2.2.1, h2.2.2.2.trans h1.2.2.2⟩

/-- Claim C10: the propagation pass at the end of `add_knowledge` leaves every
stored sentence unchanged — `_update_sentence` never writes to `knowledge`
(it simplifies only the deep copy), so the knowledge list after the whole of
`add_knowledge` is exactly the list after the append-and-branch phase. -/
theorem claim_C10 :
    (∀ (st : AIState) (s : Sentence),
      (updateSentence st s).knowledge = st.knowledge) ∧
    (∀ (st : AIState) (cell : Cell) (n : ℤ),
      (addKnowledge st cell n).knowledge = (addKnowledgeBase st cell n).knowledge) := by
  constructor
  · intro st s
    exact (updateSentence_frame st s).2.1
  · intro st cell n
    unfold addKnowledge propagate
    exact (foldl_updateSentence_frame _ _).2.1

/-- The `count == 0` branch only ever inserts into the safe set. -/
lemma zero_fold_safes_mono (L : List Cell) :
    ∀ p : Sentence × Finset Cell × Finset Cell,
      p.2.1 ⊆ (L.foldl zeroStep p).2.1 := by
  induction L with
  | nil => intro p; exact subset_rfl
  | cons a t ih =>
    intro p
    simp only [List.foldl_cons]
    refine subset_trans ?_ (ih (zeroStep p a))
    exact Finset.subset_insert a p.2.1

/-- The second `_update_sentence` loop only ever adds safe cells. -/
lemma updMine_fold_safes_mono (L : List Cell) :
    ∀ p : Sentence × Finset Cell, p.2 ⊆ (L.foldl updMineStep p).2 := by
  induction L with
  | nil => intro p; exact subset_rfl
  | cons a t ih =>
    intro p
    simp only [List.foldl_cons]
    refine subset_trans ?_ (ih (updMineStep p a))
    unfold updMineStep
    split_ifs with h1 h2
    · exact Finset.subset_union_left
    · exact subset_rfl
    · exact subset_rfl

/-- `_update_sentence` never removes a cell from the global safe set. -/
lemma updateSentence_safes_mono (st : AIState) (s : Sentence) :
    st.safes ⊆ (updateSentence st s).safes := by
  unfold updateSentence
  split_ifs with h
  · show st.safes ⊆ (updMineLoop st (updSafeLoop st s)).2
    exact updMine_fold_safes_mono (cellList (updSafeLoop st s).2)
      ((updSafeLoop st s).1, st.safes)
  · exact subset_rfl

/-- The propagation loop never removes a cell from the global safe set. -/
lemma foldl_updateSentence_safes_mono (L : List Sentence) :
    ∀ st : AIState, st.safes ⊆ (L.foldl updateSentence st).safes := by
  induction L with
  | nil => intro st; exact subset_rfl
  | cons a t ih =>
    intro st
    simp only [List.foldl_cons]
    exact subset_trans (updateSentence_safes_mono st a) (ih (updateSentence st a))

/-- The state after the append-and-branch phase holds `cell` among the
safes. -/
lemma zeroLoop_safes_mem (st : AIState) (cell : Cell) (n : ℤ) :
    cell ∈ (zeroLoop st cell n).2.1 := by
  unfold zeroLoop
  split_ifs with h
  · exact zero_fold_safes_mono _ _ (Finset.mem_insert_self cell st.safes)
  · exact Finset.mem_insert_self cell st.safes

/-- Claim C6 (amended): `add_knowledge` performs no input validation at all —
for every state and every cell, including cells already in `moves_made` and
cells outside the board bounds, the call is processed by the ordinary path:
the cell is inserted into `moves_made` and `safes` and a new sentence is
appended to `knowledge`.  Nothing is rejected. -/
theorem claim_C6 (st : AIState) (cell : Cell) (n : ℤ) :
    (addKnowledge st cell n).moves_made = insert cell st.moves_made ∧
    cell ∈ (addKnowledge st cell n).safes ∧
    (addKnowledge st cell n).knowledge.length = st.knowledge.length + 1 := by
  refine ⟨?_, ?_, ?_⟩
  · exact (foldl_updateSentence_frame
      (addKnowledgeBase st cell n).knowledge (addKnowledgeBase st cell n)).1
  · exact foldl_updateSentence_safes_mono
      (addKnowledgeBase st cell n).knowledge (addKnowledgeBase st cell n)
      (zeroLoop_safes_mem st cell n)
  · have h := (foldl_updateSentence_frame
      (addKnowledgeBase st cell n).knowledge (addKnowledgeBase st cell n)).2.1
    have h2 : (addKnowledgeBase st cell n).knowledge =
        st.knowledge ++ [(fullLoop st cell n).1] := rfl
    show ((addKnowledgeBase st cell n).knowledge.foldl updateSentence
      (addKnowledgeBase st cell n)).knowledge.length = st.knowledge.length + 1
    rw [h, h2]
    simp

/-- Counterexample to claim C6 as stated: the out-of-bounds cell `(5,5)` on a
2×2 board is not rejected; `add_knowledge` records it as a move and appends a
sentence, mutating the solver state. -/
theorem claim_C6_counterexample :
    ((5, 5) : Cell) ∉ boardCells 2 2 ∧
    (addKnowledge (initAI 2 2) (5, 5) 0).moves_made = {((5, 5) : Cell)} ∧
    (addKnowledge (initAI 2 2) (5, 5) 0).knowledge.length = 1 ∧
    addKnowledge (initAI 2 2) (5, 5) 0 ≠ initAI 2 2 := by
  decide

/-- Membership in the source's surrounding-cell set, unfolded. -/
lemma mem_getSurroundingCells {h w : ℤ} {cell p : Cell} :
    p ∈ getSurroundingCells h w cell ↔
      p ≠ cell ∧ max 0 (cell.1 - 1) ≤ p.1 ∧ p.1 ≤ min h (cell.1 + 1) ∧
        max 0 (cell.2 - 1) ≤ p.2 ∧ p.2 ≤ min w (cell.2 + 1) := by
  unfold getSurroundingCells
  simp only [Finset.mem_erase, Finset.mem_product, Finset.mem_Icc]
  tauto

/-- Membership in the specification's unrevealed-neighbor set, unfolded. -/
lemma mem_specUnrevealedNeighbors {h w : ℤ} {moves : Finset Cell} {cell p : Cell} :
    p ∈ specUnrevealedNeighbors h w moves cell ↔
      p ≠ cell ∧ cell.1 - 1 ≤ p.1 ∧ p.1 ≤ cell.1 + 1 ∧
        cell.2 - 1 ≤ p.2 ∧ p.2 ≤ cell.2 + 1 ∧
        0 ≤ p.1 ∧ p.1 < h ∧ 0 ≤ p.2 ∧ p.2 < w ∧ p ∉ moves := by
  unfold specUnrevealedNeighbors
  simp only [Finset.mem_filter, Finset.mem_erase, Finset.mem_product, Finset.mem_Icc]
  tauto

/-- Claim C2 (amended): the sentence `add_knowledge` constructs and appends has
cell set equal to the spec's unrevealed in-bounds neighbor set only under extra
conditions: the played cell must not lie on the bottom or right edge of the
board (the source clips the upper bounds at `height` / `width` inclusive, so
for edge cells out-of-bounds positions are included), and none of its
surrounding cells may be revealed (the source never excludes revealed
neighbors).  Under those conditions the two sets coincide, and the sentence's
count is the reported count. -/
theorem claim_C2 (st : AIState) (cell : Cell) (n : ℤ) (moves : Finset Cell)
    (hr0 : 0 ≤ cell.1) (hr1 : cell.1 + 1 < st.height)
    (hc0 : 0 ≤ cell.2) (hc1 : cell.2 + 1 < st.width)
    (hmoves : ∀ p ∈ getSurroundingCells st.height st.width cell, p ∉ moves) :
    (newSentenceOf st cell n).cells =
      specUnrevealedNeighbors st.height st.width moves cell ∧
    (newSentenceOf st cell n).count = n := by
  refine ⟨?_, rfl⟩
  show getSurroundingCells st.height st.width cell =
    specUnrevealedNeighbors st.height st.width moves cell
  ext p
  rw [mem_getSurroundingCells, mem_specUnrevealedNeighbors]
  constructor
  · rintro ⟨hne, hb1, hb2, hb3, hb4⟩
    have hpm : p ∉ moves := by
      apply hmoves
      rw [mem_getSurroundingCells]
      exact ⟨hne, hb1, hb2, hb3, hb4⟩
    refine ⟨hne, ?_, ?_, ?_, ?_, ?_, ?_, ?_, ?_, hpm⟩ <;> omega
  · rintro ⟨hne, hb1, hb2, hb3, hb4, hb5, hb6, hb7, hb8, hpm⟩
    refine ⟨hne, ?_, ?_, ?_, ?_⟩ <;> omega

/-- Counterexample to claim C2 as stated: on a 2×2 board, revealing `(0,1)`
appends a sentence over `{(0,0),(0,2),(1,0),(1,1),(1,2)}`, which contains the
out-of-bounds cells `(0,2)` and `(1,2)`; the spec's unrevealed in-bounds
neighbor set is `{(0,0),(1,0),(1,1)}`. -/
theorem claim_C2_counterexample :
    (addKnowledge (initAI 2 2) (0, 1) 0).knowledge =
      [⟨{((0, 0) : Cell), (0, 2), (1, 0), (1, 1), (1, 2)}, 0⟩] ∧
    specUnrevealedNeighbors 2 2 {((0, 1) : Cell)} (0, 1) =
      {((0, 0) : Cell), (1, 0), (1, 1)} ∧
    ({((0, 0) : Cell), (0, 2), (1, 0), (1, 1), (1, 2)} : Finset Cell) ≠
      {((0, 0) : Cell), (1, 0), (1, 1)} := by
  decide

/-- Witness for claim C2: the interior cell `(1,1)` of a 3×3 board with no
revealed neighbors. -/
theorem claim_C2_witness :
    (newSentenceOf (initAI 3 3) (1, 1) 5).cells =
      specUnrevealedNeighbors (initAI 3 3).height (initAI 3 3).width ∅ (1, 1) ∧
    (newSentenceOf (initAI 3 3) (1, 1) 5).count = 5 :=
  claim_C2 (initAI 3 3) (1, 1) 5 ∅ (by decide) (by decide) (by decide) (by decide)
    (by decide)

/-- The head of a nonempty list belongs to it, so `hdChoice` is a valid stand-in
for `random.choice`. -/
lemma hdChoice_mem : ∀ l : List Cell, l ≠ [] → hdChoice l ∈ l := by
  intro l hl
  cases l with
  | nil => exact absurd rfl hl
  | cons a t => simp [hdChoice]

/-- Claim C9: `make_safe_move` returns a cell that is in `safes` and not in
`moves_made` whenever some board cell qualifies, returns `None` exactly when no
board cell qualifies, and leaves the whole solver state untouched (the method
only reads `self`). -/
theorem claim_C9 (choice : List Cell → Cell)
    (hch : ∀ l : List Cell, l ≠ [] → choice l ∈ l) (st : AIState) :
    ((makeSafeMove choice st).1 = none ↔
      ∀ c ∈ boardCells st.height st.width, c ∈ st.moves_made ∨ c ∉ st.safes) ∧
    (∀ c : Cell, (makeSafeMove choice st).1 = some c →
      c ∈ st.safes ∧ c ∉ st.moves_made) ∧
    (makeSafeMove choice st).2 = st := by
  have hfst : (makeSafeMove choice st).1 =
      (if (cellList (boardCells st.height st.width)).filter
          (fun c => decide (c ∉ st.moves_made ∧ c ∈ st.safes)) = [] then none
        else some (choice ((cellList (boardCells st.height st.width)).filter
          (fun c => decide (c ∉ st.moves_made ∧ c ∈ st.safes))))) := rfl
  refine ⟨?_, ?_, rfl⟩
  · rw [hfst]
    constructor
    · intro hnone c hc
      by_cases h : (cellList (boardCells st.height st.width)).filter
          (fun c => decide (c ∉ st.moves_made ∧ c ∈ st.safes)) = []
      · have hall := List.filter_eq_nil_iff.mp h c (mem_cellList.mpr hc)
        simp only [decide_eq_true_eq] at hall
        tauto
      · rw [if_neg h] at hnone
        exact absurd hnone (by simp)
    · intro hall
      rw [if_pos]
      apply List.filter_eq_nil_iff.mpr
      intro a ha
      have := hall a (mem_cellList.mp ha)
      simp only [decide_eq_true_eq]
      tauto
  · intro c hc
    rw [hfst] at hc
    by_cases h : (cellList (boardCells st.height st.width)).filter
        (fun c => decide (c ∉ st.moves_made ∧ c ∈ st.safes)) = []
    · rw [if_pos h] at hc
      exact absurd hc (by simp)
    · rw [if_neg h] at hc
      have hcc : choice ((cellList (boardCells st.height st.width)).filter
          (fun c => decide (c ∉ st.moves_made ∧ c ∈ st.safes))) = c :=
        Option.some_injective _ hc
      have hmem := hch _ h
      rw [hcc] at hmem
      have := List.mem_filter.mp hmem
      simp only [decide_eq_true_eq] at this
      exact ⟨this.2.2, this.2.1⟩

/-- Witness for claim C9 at a 2×2 solver state whose only safe cell is
`(0,0)`. -/
theorem claim_C9_witness :
    ((makeSafeMove hdChoice (⟨2, 2, ∅, {((0, 0) : Cell)}, ∅, []⟩ : AIState)).1 = none ↔
      ∀ c ∈ boardCells (⟨2, 2, ∅, {((0, 0) : Cell)}, ∅, []⟩ : AIState).height
          (⟨2, 2, ∅, {((0, 0) : Cell)}, ∅, []⟩ : AIState).width,
        c ∈ (⟨2, 2, ∅, {((0, 0) : Cell)}, ∅, []⟩ : AIState).moves_made ∨
          c ∉ (⟨2, 2, ∅, {((0, 0) : Cell)}, ∅, []⟩ : AIState).safes) ∧
    (∀ c : Cell,
      (makeSafeMove hdChoice (⟨2, 2, ∅, {((0, 0) : Cell)}, ∅, []⟩ : AIState)).1 = some c →
        c ∈ (⟨2, 2, ∅, {((0, 0) : Cell)}, ∅, []⟩ : AIState).safes ∧
          c ∉ (⟨2, 2, ∅, {((0, 0) : Cell)}, ∅, []⟩ : AIState).moves_made) ∧
    (makeSafeMove hdChoice (⟨2, 2, ∅, {((0, 0) : Cell)}, ∅, []⟩ : AIState)).2 =
      (⟨2, 2, ∅, {((0, 0) : Cell)}, ∅, []⟩ : AIState) :=
  claim_C9 hdChoice hdChoice_mem ⟨2, 2, ∅, {((0, 0) : Cell)}, ∅, []⟩

/-- Claim C8: under the precondition that `make_safe_move()` yields no move,
`make_random_move` returns a board cell that is neither in `moves_made` nor in
`mines` whenever one exists, and returns `None` exactly when every board cell
is in `moves_made` or in `mines`. -/
theorem claim_C8 (choice : List Cell → Cell)
    (hch : ∀ l : List Cell, l ≠ [] → choice l ∈ l) (st : AIState)
    (hno : (makeSafeMove choice st).1 = none) :
    (makeRandomMove choice st = none ↔
      ∀ c ∈ boardCells st.height st.width, c ∈ st.moves_made ∨ c ∈ st.mines) ∧
    (∀ c : Cell, makeRandomMove choice st = some c →
      c ∈ boardCells st.height st.width ∧ c ∉ st.moves_made ∧ c ∉ st.mines) := by
  have hrm : makeRandomMove choice st =
      (if (cellList (boardCells st.height st.width)).filter
          (fun c => decide (c ∉ st.moves_made ∧ c ∉ st.mines)) = [] then none
        else some (choice ((cellList (boardCells st.height st.width)).filter
          (fun c => decide (c ∉ st.moves_made ∧ c ∉ st.mines))))) := by
    unfold makeRandomMove
    rw [if_pos hno]
  constructor
  · rw [hrm]
    constructor
    · intro hnone c hc
      by_cases h : (cellList (boardCells st.height st.width)).filter
          (fun c => decide (c ∉ st.moves_made ∧ c ∉ st.mines)) = []
      · have hall := List.filter_eq_nil_iff.mp h c (mem_cellList.mpr hc)
        simp only [decide_eq_true_eq] at hall
        tauto
      · rw [if_neg h] at hnone
        exact absurd hnone (by simp)
    · intro hall
      rw [if_pos]
      apply List.filter_eq_nil_iff.mpr
      intro a ha
      have := hall a (mem_cellList.mp ha)
      simp only [decide_eq_true_eq]
      tauto
  · intro c hc
    rw [hrm] at hc
    by_cases h : (cellList (boardCells st.height st.width)).filter
        (fun c => decide (c ∉ st.moves_made ∧ c ∉ st.mines)) = []
    · rw [if_pos h] at hc
      exact absurd hc (by simp)
    · rw [if_neg h] at hc
      have hcc : choice ((cellList (boardCells st.height st.width)).filter
          (fun c => decide (c ∉ st.moves_made ∧ c ∉ st.mines))) = c :=
        Option.some_injective _ hc
      have hmem := hch _ h
      rw [hcc] at hmem
      have := List.mem_filter.mp hmem
      simp only [decide_eq_true_eq] at this
      exact ⟨mem_cellList.mp this.1, this.2.1, this.2.2⟩

/-- Witness for claim C8 at the fresh 1×1 solver, where `make_safe_move()`
yields no move and `(0,0)` is available. -/
theorem claim_C8_witness :
    (makeRandomMove hdChoice (initAI 1 1) = none ↔
      ∀ c ∈ boardCells (initAI 1 1).height (initAI 1 1).width,
        c ∈ (initAI 1 1).moves_made ∨ c ∈ (initAI 1 1).mines) ∧
    (∀ c : Cell, makeRandomMove hdChoice (initAI 1 1) = some c →
      c ∈ boardCells (initAI 1 1).height (initAI 1 1).width ∧
        c ∉ (initAI 1 1).moves_made ∧ c ∉ (initAI 1 1).mines) :=
  claim_C8 hdChoice hdChoice_mem (initAI 1 1) (by decide)

/-- Cells absent from the copied sentence leave a first-loop iteration inert,
as long as the resolution condition cannot fire. -/
lemma updSafe_fold_noop (L : List Cell) :
    ∀ p : Sentence × Finset Cell,
      (∀ x ∈ L, x ∉ p.1.cells) →
      ((p.1.cells.card : ℤ) ≠ p.1.count ∨ p.1.cells = ∅) →
      L.foldl updSafeStep p = p := by
  induction L with
  | nil => intro p _ _; rfl
  | cons a t ih =>
    intro p hL hc
    have ha : a ∉ p.1.cells := hL a (by simp)
    have hstep : updSafeStep p a = p := by
      unfold updSafeStep
      rw [Finset.erase_eq_of_not_mem ha]
      have hneg : ¬ ((p.1.cells.card : ℤ) = p.1.count ∧ 0 < p.1.cells.card) := by
        rintro ⟨h1, h2⟩
        rcases hc with hc | hc
        · exact hc h1
        · rw [hc] at h2
          simp at h2
      rw [if_neg hneg]
    rw [List.foldl_cons, hstep]
    exact ih p (fun x hx => hL x (by simp [hx])) hc

/-- Erasing the distinct third element of a three-element set. -/
lemma erase_triple {A B C : Cell} (hAB : A ≠ B) (hAC : A ≠ C) (hBC : B ≠ C) :
    ({A, B, C} : Finset Cell).erase C = {A, B} := by
  ext x
  simp only [Finset.mem_erase, Finset.mem_insert, Finset.mem_singleton]
  constructor
  · rintro ⟨hxC, hx | hx | hx⟩
    · exact Or.inl hx
    · exact Or.inr hx
    · exact absurd hx hxC
  · rintro (hx | hx)
    · subst hx
      exact ⟨hAC, Or.inl rfl⟩
    · subst hx
      exact ⟨hBC, Or.inr (Or.inl rfl)⟩

/-- The first-loop iteration that removes the known-safe `C` from
`{A, B, C} = 2` fires the subset-equals-count resolution: both remaining cells
are added to the mine accumulator and the copy is emptied. -/
lemma updSafeStep_triple (A B C : Cell) (m : Finset Cell)
    (hAB : A ≠ B) (hAC : A ≠ C) (hBC : B ≠ C) :
    updSafeStep (⟨{A, B, C}, 2⟩, m) C = (⟨∅, 0⟩, m ∪ {A, B}) := by
  have herase := erase_triple hAB hAC hBC
  have hcard : ({A, B} : Finset Cell).card = 2 := by
    rw [Finset.card_insert_of_not_mem (by simp [hAB]), Finset.card_singleton]
  unfold updSafeStep
  rw [herase]
  rw [if_pos (by rw [hcard]; norm_num)]
  rw [hcard]
  norm_num

/-- The second `_update_sentence` loop is inert once the copy has no cells. -/
lemma updMine_fold_noop (L : List Cell) :
    ∀ p : Sentence × Finset Cell, p.1.cells = ∅ → L.foldl updMineStep p = p := by
  induction L with
  | nil => intro p _; rfl
  | cons a t ih =>
    intro p hp
    have hstep : updMineStep p a = p := by
      unfold updMineStep
      rw [if_neg]
      rw [hp]
      simp
    rw [List.foldl_cons, hstep]
    exact ih p hp

/-- Running the whole first loop over an enumeration that contains `C` (once)
and neither `A` nor `B` resolves `{A, B, C} = 2` into the two derived mines. -/
lemma updSafe_fold_triple (A B C : Cell)
    (hAB : A ≠ B) (hAC : A ≠ C) (hBC : B ≠ C)
    (L : List Cell) (hnd : L.Nodup) (hC : C ∈ L)
    (hA : A ∉ L) (hB : B ∉ L) (m : Finset Cell) :
    L.foldl updSafeStep (⟨{A, B, C}, 2⟩, m) = (⟨∅, 0⟩, m ∪ {A, B}) := by
  obtain ⟨l1, l2, rfl⟩ := List.append_of_mem hC
  rw [List.nodup_append] at hnd
  have hCl1 : C ∉ l1 := fun hmem => hnd.2.2 hmem (List.mem_cons_self C l2)
  have hCl2 : C ∉ l2 := (List.nodup_cons.mp hnd.2.1).1
  have hc3 : ({A, B, C} : Finset Cell).card = 3 := by
    rw [Finset.card_insert_of_not_mem (by simp [hAB, hAC]),
      Finset.card_insert_of_not_mem (by simp [hBC]), Finset.card_singleton]
  have h1 : l1.foldl updSafeStep (⟨{A, B, C}, 2⟩, m) = (⟨{A, B, C}, 2⟩, m) := by
    apply updSafe_fold_noop
    · intro x hx
      simp only [Finset.mem_insert, Finset.mem_singleton]
      push_neg
      refine ⟨?_, ?_, ?_⟩
      · rintro rfl
        exact hA (by simp [hx])
      · rintro rfl
        exact hB (by simp [hx])
      · rintro rfl
        exact hCl1 hx
    · left
      show (({A, B, C} : Finset Cell).card : ℤ) ≠ 2
      rw [hc3]
      norm_num
  have h2 : l2.foldl updSafeStep ((⟨∅, 0⟩ : Sentence), m ∪ {A, B}) =
      (⟨∅, 0⟩, m ∪ {A, B}) := by
    apply updSafe_fold_noop
    · intro x _
      simp
    · right
      rfl
  rw [List.foldl_append, h1, List.foldl_cons,
    updSafeStep_triple A B C m hAB hAC hBC, h2]

/-- Claim C4 (amended): with `{A,B,C} = 2` in the knowledge base and `C` known
safe (and `A`, `B` not yet known safe), the propagation step on that sentence
reduces only the deep copy to `{A,B} = 2`, resolves both `A` and `B` as mines
by adding them to the global mine set, and leaves the stored sentence — like
the rest of the solver state — unchanged. -/
theorem claim_C4 (st : AIState) (A B C : Cell)
    (hAB : A ≠ B) (hAC : A ≠ C) (hBC : B ≠ C)
    (hC : C ∈ st.safes) (hA : A ∉ st.safes) (hB : B ∉ st.safes) :
    (updateSentence st ⟨{A, B, C}, 2⟩).mines = st.mines ∪ {A, B} ∧
    (updateSentence st ⟨{A, B, C}, 2⟩).safes = st.safes ∧
    (updateSentence st ⟨{A, B, C}, 2⟩).knowledge = st.knowledge := by
  have hguard : (0 : ℤ) < (⟨{A, B, C}, 2⟩ : Sentence).count ∧
      0 < (⟨{A, B, C}, 2⟩ : Sentence).cells.card := by
    refine ⟨by norm_num, ?_⟩
    exact Finset.card_pos.mpr ⟨A, by simp⟩
  have hloop1 : updSafeLoop st ⟨{A, B, C}, 2⟩ = (⟨∅, 0⟩, st.mines ∪ {A, B}) := by
    unfold updSafeLoop
    exact updSafe_fold_triple A B C hAB hAC hBC _ (cellList_nodup _)
      (mem_cellList.mpr hC) (fun hmem => hA (mem_cellList.mp hmem))
      (fun hmem => hB (mem_cellList.mp hmem)) st.mines
  have hloop2 : updMineLoop st ((⟨∅, 0⟩ : Sentence), st.mines ∪ {A, B}) =
      (⟨∅, 0⟩, st.safes) := by
    unfold updMineLoop
    exact updMine_fold_noop _ _ rfl
  unfold updateSentence
  rw [if_pos hguard, hloop1, hloop2]
  exact ⟨rfl, rfl, rfl⟩

/-- Counterexample to claim C4 as stated: with `{(0,0),(0,1),(0,2)} = 2` stored
and `(0,2)` known safe, the propagation pass adds `(0,0)` and `(0,1)` to the
global mine set, but the stored sentence still reads `{(0,0),(0,1),(0,2)} = 2`:
it is not reduced to `{(0,0),(0,1)} = 2`, because `_update_sentence` works on a
deep copy. -/
theorem claim_C4_counterexample :
    (propagate ⟨3, 3, ∅, {((0, 2) : Cell)}, ∅,
        [⟨{((0, 0) : Cell), (0, 1), (0, 2)}, 2⟩]⟩).knowledge =
      [⟨{((0, 0) : Cell), (0, 1), (0, 2)}, 2⟩] ∧
    (propagate ⟨3, 3, ∅, {((0, 2) : Cell)}, ∅,
        [⟨{((0, 0) : Cell), (0, 1), (0, 2)}, 2⟩]⟩).mines =
      {((0, 0) : Cell), (0, 1)} ∧
    (⟨{((0, 0) : Cell), (0, 1), (0, 2)}, 2⟩ : Sentence) ≠
      ⟨{((0, 0) : Cell), (0, 1)}, 2⟩ := by
  decide

/-- Witness for claim C4 with `A = (0,0)`, `B = (0,1)`, `C = (0,2)` on a state
that knows only `C` safe. -/
theorem claim_C4_witness :
    (updateSentence (⟨3, 3, ∅, {((0, 2) : Cell)}, ∅, []⟩ : AIState)
        ⟨{((0, 0) : Cell), (0, 1), (0, 2)}, 2⟩).mines =
      (⟨3, 3, ∅, {((0, 2) : Cell)}, ∅, []⟩ : AIState).mines ∪
        {((0, 0) : Cell), (0, 1)} ∧
    (updateSentence (⟨3, 3, ∅, {((0, 2) : Cell)}, ∅, []⟩ : AIState)
        ⟨{((0, 0) : Cell), (0, 1), (0, 2)}, 2⟩).safes =
      (⟨3, 3, ∅, {((0, 2) : Cell)}, ∅, []⟩ : AIState).safes ∧
    (updateSentence (⟨3, 3, ∅, {((0, 2) : Cell)}, ∅, []⟩ : AIState)
        ⟨{((0, 0) : Cell), (0, 1), (0, 2)}, 2⟩).knowledge =
      (⟨3, 3, ∅, {((0, 2) : Cell)}, ∅, []⟩ : AIState).knowledge :=
  claim_C4 ⟨3, 3, ∅, {((0, 2) : Cell)}, ∅, []⟩ (0, 0) (0, 1) (0, 2)
    (by decide) (by decide) (by decide) (by decide) (by decide) (by decide)

/-- Removing a non-member of `M` does not change the intersection with `M`. -/
lemma inter_erase_of_not_mem {s M : Finset Cell} {a : Cell} (ha : a ∉ M) :
    s.erase a ∩ M = s ∩ M := by
  ext x
  simp only [Finset.mem_inter, Finset.mem_erase]
  constructor
  · rintro ⟨⟨_, hs⟩, hM⟩
    exact ⟨hs, hM⟩
  · rintro ⟨hs, hM⟩
    refine ⟨⟨?_, hs⟩, hM⟩
    rintro rfl
    exact ha hM

/-- Erasure commutes with intersection. -/
lemma erase_inter_comm (s M : Finset Cell) (a : Cell) :
    s.erase a ∩ M = (s ∩ M).erase a := by
  ext x
  simp only [Finset.mem_inter, Finset.mem_erase]
  tauto

/-- A set whose intersection with `M` is as large as itself lies inside `M`. -/
lemma subset_of_inter_card_eq {s M : Finset Cell} (h : (s ∩ M).card = s.card) :
    s ⊆ M := by
  have heq : s ∩ M = s :=
    Finset.eq_of_subset_of_card_le Finset.inter_subset_left (le_of_eq h.symm)
  intro x hx
  rw [← heq] at hx
  exact (Finset.mem_inter.mp hx).2

/-- A subset of a set disjoint from `M` is disjoint from `M`. -/
lemma inter_empty_of_subset {A B M : Finset Cell} (h : A ⊆ B) (hB : B ∩ M = ∅) :
    A ∩ M = ∅ := by
  rw [← Finset.subset_empty, ← hB]
  exact Finset.inter_subset_inter h subset_rfl

/-- A cell set true of `M` with full count lies inside `M`. -/
lemma sentTrue_of_subset {M : Finset Cell} {s : Sentence}
    (h : s.cells ⊆ M) (hc : (s.cells.card : ℤ) = s.count) : SentTrue M s := by
  unfold SentTrue
  rw [Finset.inter_eq_left.mpr h]
  exact hc

/-- Membership in the board's cell set, unfolded. -/
lemma mem_boardCells {h w : ℤ} {p : Cell} :
    p ∈ boardCells h w ↔ 0 ≤ p.1 ∧ p.1 ≤ h - 1 ∧ 0 ≤ p.2 ∧ p.2 ≤ w - 1 := by
  unfold boardCells
  simp only [Finset.mem_product, Finset.mem_Icc]
  tauto

/-- Membership in the board's reported neighbor set, unfolded. -/
lemma mem_nearbySet {h w : ℤ} {M : Finset Cell} {cell p : Cell} :
    p ∈ nearbySet h w M cell ↔
      p ≠ cell ∧ cell.1 - 1 ≤ p.1 ∧ p.1 ≤ cell.1 + 1 ∧ cell.2 - 1 ≤ p.2 ∧
        p.2 ≤ cell.2 + 1 ∧ 0 ≤ p.1 ∧ p.1 < h ∧ 0 ≤ p.2 ∧ p.2 < w ∧ p ∈ M := by
  unfold nearbySet
  simp only [Finset.mem_filter, Finset.mem_erase, Finset.mem_product, Finset.mem_Icc]
  tauto

/-- For a mine set that lies on the board, the mines among the source's
(possibly out-of-bounds) surrounding cells are exactly the mines the board
counts in `nearby_mines`: the out-of-bounds positions the source includes can
never hold a mine. -/
lemma surr_inter_eq (h w : ℤ) (M : Finset Cell) (hM : M ⊆ boardCells h w)
    (cell : Cell) :
    getSurroundingCells h w cell ∩ M = nearbySet h w M cell := by
  ext p
  rw [Finset.mem_inter, mem_getSurroundingCells, mem_nearbySet]
  constructor
  · rintro ⟨⟨hne, h1, h2, h3, h4⟩, hpM⟩
    have hb := mem_boardCells.mp (hM hpM)
    refine ⟨hne, ?_, ?_, ?_, ?_, ?_, ?_, ?_, ?_, hpM⟩ <;> omega
  · rintro ⟨hne, h1, h2, h3, h4, h5, h6, h7, h8, hpM⟩
    refine ⟨⟨hne, ?_, ?_, ?_, ?_⟩, hpM⟩ <;> omega

/-- The enumeration covers exactly the enumerated set. -/
lemma cellList_toFinset (s : Finset Cell) : (cellList s).toFinset = s := by
  ext x
  rw [List.mem_toFinset, mem_cellList]

/-- Invariant preservation through the first `_update_sentence` loop: folding
over cells that are not mines keeps the copy true of `M` and every cell the
loop adds to the mine accumulator really is a mine. -/
lemma updSafe_fold_inv (M : Finset Cell) (L : List Cell)
    (hL : ∀ x ∈ L, x ∉ M) :
    ∀ p : Sentence × Finset Cell, SentTrue M p.1 → p.2 ⊆ M →
      SentTrue M (L.foldl updSafeStep p).1 ∧ (L.foldl updSafeStep p).2 ⊆ M := by
  induction L with
  | nil => intro p hs hm; exact ⟨hs, hm⟩
  | cons a t ih =>
    intro p hs hm
    have ha : a ∉ M := hL a (by simp)
    have ht : ∀ x ∈ t, x ∉ M := fun x hx => hL x (by simp [hx])
    rw [List.foldl_cons]
    have hdc : ((p.1.cells.erase a ∩ M).card : ℤ) = p.1.count := by
      rw [inter_erase_of_not_mem ha]
      exact hs
    have hstep : SentTrue M (updSafeStep p a).1 ∧ (updSafeStep p a).2 ⊆ M := by
      unfold updSafeStep
      split_ifs with hcond
      · constructor
        · show (((∅ : Finset Cell) ∩ M).card : ℤ) =
            p.1.count - ((p.1.cells.erase a).card : ℤ)
          rw [Finset.empty_inter]
          simp only [Finset.card_empty, Nat.cast_zero]
          omega
        · show p.2 ∪ p.1.cells.erase a ⊆ M
          apply Finset.union_subset hm
          apply subset_of_inter_card_eq
          omega
      · exact ⟨hdc, hm⟩
    exact ih ht (updSafeStep p a) hstep.1 hstep.2

/-- Invariant preservation through the second `_update_sentence` loop: folding
over known mines keeps the copy true of `M` and every cell the loop adds to the
safe accumulator really avoids every mine. -/
lemma updMine_fold_inv (M : Finset Cell) (L : List Cell)
    (hL : ∀ x ∈ L, x ∈ M) :
    ∀ p : Sentence × Finset Cell, SentTrue M p.1 → p.2 ∩ M = ∅ →
      SentTrue M (L.foldl updMineStep p).1 ∧
        (L.foldl updMineStep p).2 ∩ M = ∅ := by
  induction L with
  | nil => intro p hs hm; exact ⟨hs, hm⟩
  | cons a t ih =>
    intro p hs hm
    have ha : a ∈ M := hL a (by simp)
    have ht : ∀ x ∈ t, x ∈ M := fun x hx => hL x (by simp [hx])
    rw [List.foldl_cons]
    have hdc : ∀ hmm : a ∈ p.1.cells,
        ((p.1.cells.erase a ∩ M).card : ℤ) = p.1.count - 1 := by
      intro hmm
      have haM : a ∈ p.1.cells ∩ M := Finset.mem_inter.mpr ⟨hmm, ha⟩
      rw [erase_inter_comm, Finset.card_erase_of_mem haM]
      have hpos : 0 < (p.1.cells ∩ M).card := Finset.card_pos.mpr ⟨a, haM⟩
      have hs' : ((p.1.cells ∩ M).card : ℤ) = p.1.count := hs
      omega
    have hstep : SentTrue M (updMineStep p a).1 ∧ (updMineStep p a).2 ∩ M = ∅ := by
      unfold updMineStep
      split_ifs with hmem hcond
      · constructor
        · exact hdc hmem
        · show (p.2 ∪ p.1.cells.erase a) ∩ M = ∅
          rw [Finset.union_inter_distrib_right, hm]
          have hz : (p.1.cells.erase a ∩ M).card = 0 := by
            have := hdc hmem
            omega
          rw [Finset.card_eq_zero.mp hz]
          simp
      · exact ⟨hdc hmem, hm⟩
      · exact ⟨hs, hm⟩
    exact ih ht (updMineStep p a) hstep.1 hstep.2

/-- `_update_sentence` preserves the soundness invariant when applied to a
sentence that is true of the board's mine set. -/
lemma updateSentence_inv (M : Finset Cell) (st : AIState) (s : Sentence)
    (hInv : SolverInv M st) (hs : SentTrue M s) :
    SolverInv M (updateSentence st s) := by
  obtain ⟨hsafes, hmines, hknow⟩ := hInv
  unfold updateSentence
  split_ifs with hg
  · have hL1 : ∀ x ∈ cellList st.safes, x ∉ M := by
      intro x hx hxM
      have hxs : x ∈ st.safes := mem_cellList.mp hx
      have hmemi : x ∈ st.safes ∩ M := Finset.mem_inter.mpr ⟨hxs, hxM⟩
      rw [hsafes] at hmemi
      exact absurd hmemi (Finset.not_mem_empty x)
    have h1 := updSafe_fold_inv M (cellList st.safes) hL1 (s, st.mines) hs hmines
    have hL2 : ∀ x ∈ cellList (updSafeLoop st s).2, x ∈ M := by
      intro x hx
      exact h1.2 (mem_cellList.mp hx)
    have h2 := updMine_fold_inv M (cellList (updSafeLoop st s).2) hL2
      ((updSafeLoop st s).1, st.safes) h1.1 hsafes
    exact ⟨h2.2, h1.2, hknow⟩
  · exact ⟨hsafes, hmines, hknow⟩

/-- The propagation fold preserves the soundness invariant when all folded
sentences are true of the board's mine set. -/
lemma foldl_updateSentence_inv (M : Finset Cell) (L : List Sentence) :
    ∀ st : AIState, SolverInv M st → (∀ s ∈ L, SentTrue M s) →
      SolverInv M (L.foldl updateSentence st) := by
  induction L with
  | nil => intro st h _; exact h
  | cons a t ih =>
    intro st h hL
    rw [List.foldl_cons]
    exact ih _ (updateSentence_inv M st a h (hL a (by simp)))
      (fun s hs => hL s (by simp [hs]))

/-- The `count == 0` branch leaves the new sentence unchanged: with a zero
count, every `mark_safe` call inside it is a no-op. -/
lemma mark_safe_count_zero {s : Sentence} (h : s.count = 0) (c : Cell) :
    s.mark_safe c = s := by
  unfold Sentence.mark_safe
  rw [if_neg]
  rintro ⟨_, hpos⟩
  omega

/-- Folding the `count == 0` branch does not change the sentence when its count
is zero. -/
lemma zero_fold_fst (L : List Cell) :
    ∀ p : Sentence × Finset Cell × Finset Cell, p.1.count = 0 →
      (L.foldl zeroStep p).1 = p.1 := by
  induction L with
  | nil => intro p _; rfl
  | cons a t ih =>
    intro p hp
    rw [List.foldl_cons]
    have hstep : (zeroStep p a).1 = p.1 := mark_safe_count_zero hp a
    have hcnt : (zeroStep p a).1.count = 0 := by
      rw [hstep]
      exact hp
    rw [← hstep]
    exact ih (zeroStep p a) hcnt

/-- The `count == 0` branch only removes mines. -/
lemma zero_fold_mines_subset (L : List Cell) :
    ∀ p : Sentence × Finset Cell × Finset Cell,
      (L.foldl zeroStep p).2.2 ⊆ p.2.2 := by
  induction L with
  | nil => intro p; exact subset_rfl
  | cons a t ih =>
    intro p
    rw [List.foldl_cons]
    exact subset_trans (ih (zeroStep p a)) (Finset.erase_subset a p.2.2)

/-- The `count == 0` branch adds to the safe set only cells of the iterated
list. -/
lemma zero_fold_safes_subset (L : List Cell) :
    ∀ p : Sentence × Finset Cell × Finset Cell,
      (L.foldl zeroStep p).2.1 ⊆ p.2.1 ∪ L.toFinset := by
  induction L with
  | nil => intro p; exact Finset.subset_union_left
  | cons a t ih =>
    intro p
    rw [List.foldl_cons]
    intro x hx
    have hmem := ih (zeroStep p a) hx
    simp only [zeroStep, Finset.mem_union, Finset.mem_insert,
      List.toFinset_cons] at hmem ⊢
    tauto

/-- The `count == len` branch adds to the mine set only cells of the iterated
list. -/
lemma full_fold_mines_subset (L : List Cell) :
    ∀ p : Sentence × Finset Cell, (L.foldl fullStep p).2 ⊆ p.2 ∪ L.toFinset := by
  induction L with
  | nil => intro p; exact Finset.subset_union_left
  | cons a t ih =>
    intro p
    rw [List.foldl_cons]
    intro x hx
    have hmem := ih (fullStep p a) hx
    simp only [fullStep, Finset.mem_union, Finset.mem_insert,
      List.toFinset_cons] at hmem ⊢
    tauto

/-- The `count == len` branch keeps the new sentence's cells inside `M` and its
count equal to its cardinality, provided it starts that way. -/
lemma full_fold_sent (M : Finset Cell) (L : List Cell) :
    ∀ p : Sentence × Finset Cell, p.1.cells ⊆ M →
      (p.1.cells.card : ℤ) = p.1.count →
      (L.foldl fullStep p).1.cells ⊆ M ∧
        (((L.foldl fullStep p).1.cells.card : ℤ) =
          (L.foldl fullStep p).1.count) := by
  induction L with
  | nil => intro p hsub hc; exact ⟨hsub, hc⟩
  | cons a t ih =>
    intro p hsub hc
    rw [List.foldl_cons]
    have hstep : (fullStep p a).1.cells ⊆ M ∧
        (((fullStep p a).1.cells.card : ℤ) = (fullStep p a).1.count) := by
      show (p.1.mark_mine a).cells ⊆ M ∧
        (((p.1.mark_mine a).cells.card : ℤ) = (p.1.mark_mine a).count)
      unfold Sentence.mark_mine
      split_ifs with hcond
      · constructor
        · exact subset_trans (Finset.erase_subset a p.1.cells) hsub
        · show (((p.1.cells.erase a).card : ℤ)) = p.1.count - 1
          rw [Finset.card_erase_of_mem hcond.1]
          have hpos : 0 < p.1.cells.card := Finset.card_pos.mpr ⟨a, hcond.1⟩
          omega
      · exact ⟨hsub, hc⟩
    exact ih (fullStep p a) hstep.1 hstep.2

/-- The append-and-branch phase of `add_knowledge` preserves the soundness
invariant on every consistent call. -/
lemma addKnowledgeBase_inv (M : Finset Cell) (st : AIState) (cell : Cell)
    (n : ℤ) (hM : M ⊆ boardCells st.height st.width)
    (hInv : SolverInv M st)
    (hcall : ConsistentCall st.height st.width M cell n) :
    SolverInv M (addKnowledgeBase st cell n) := by
  obtain ⟨hsafes, hmines, hknow⟩ := hInv
  obtain ⟨hcb, hcM, hcnt⟩ := hcall
  have hcnt' : ((getSurroundingCells st.height st.width cell ∩ M).card : ℤ) = n := by
    rw [surr_inter_eq st.height st.width M hM cell]
    exact hcnt.symm
  have hins : (insert cell st.safes) ∩ M = ∅ := by
    rw [Finset.insert_inter_of_not_mem hcM]
    exact hsafes
  have hz1 : (zeroLoop st cell n).1 = newSentenceOf st cell n := by
    unfold zeroLoop
    split_ifs with h0
    · exact zero_fold_fst _ _ h0
    · rfl
  have hzsafes : (zeroLoop st cell n).2.1 ∩ M = ∅ := by
    unfold zeroLoop
    split_ifs with h0
    · have hsurrM : getSurroundingCells st.height st.width cell ∩ M = ∅ := by
        apply Finset.card_eq_zero.mp
        omega
      apply inter_empty_of_subset (zero_fold_safes_subset _ _)
      rw [cellList_toFinset, Finset.union_inter_distrib_right, hins, hsurrM]
      simp
    · exact hins
  have hzmines : (zeroLoop st cell n).2.2 ⊆ st.mines := by
    unfold zeroLoop
    split_ifs with h0
    · exact zero_fold_mines_subset _ _
    · exact subset_rfl
  have hsurrsub : n = ((getSurroundingCells st.height st.width cell).card : ℤ) →
      getSurroundingCells st.height st.width cell ⊆ M := by
    intro hfull
    apply subset_of_inter_card_eq
    omega
  have hfmines : (fullLoop st cell n).2 ⊆ M := by
    unfold fullLoop
    split_ifs with hfull
    · intro x hx
      have hmem := full_fold_mines_subset _ _ hx
      rw [cellList_toFinset] at hmem
      rcases Finset.mem_union.mp hmem with hmem | hmem
      · exact hmines (hzmines hmem)
      · exact hsurrsub hfull hmem
    · exact fun x hx => hmines (hzmines hx)
  have hfsent : SentTrue M (fullLoop st cell n).1 := by
    unfold fullLoop
    split_ifs with hfull
    · have hstart1 : (zeroLoop st cell n).1.cells ⊆ M := by
        rw [hz1]
        exact hsurrsub hfull
      have hstart2 : (((zeroLoop st cell n).1.cells.card : ℤ)) =
          (zeroLoop st cell n).1.count := by
        rw [hz1]
        exact hfull.symm
      have hres := full_fold_sent M
        (cellList (getSurroundingCells st.height st.width cell))
        ((zeroLoop st cell n).1, (zeroLoop st cell n).2.2) hstart1 hstart2
      exact sentTrue_of_subset hres.1 hres.2
    · show SentTrue M (zeroLoop st cell n).1
      rw [hz1]
      exact hcnt'
  refine ⟨hzsafes, hfmines, ?_⟩
  intro s hs
  have hs' : s ∈ st.knowledge ++ [(fullLoop st cell n).1] := hs
  rw [List.mem_append] at hs'
  rcases hs' with hs | hs
  · exact hknow s hs
  · rw [List.mem_singleton] at hs
    rw [hs]
    exact hfsent

/-- `add_knowledge` preserves the soundness invariant on every consistent
call. -/
lemma addKnowledge_inv (M : Finset Cell) (st : AIState) (cell : Cell) (n : ℤ)
    (hM : M ⊆ boardCells st.height st.width)
    (hInv : SolverInv M st)
    (hcall : ConsistentCall st.height st.width M cell n) :
    SolverInv M (addKnowledge st cell n) := by
  have hbase := addKnowledgeBase_inv M st cell n hM hInv hcall
  exact foldl_updateSentence_inv M (addKnowledgeBase st cell n).knowledge
    (addKnowledgeBase st cell n) hbase hbase.2.2

/-- `add_knowledge` never changes the board dimensions. -/
lemma addKnowledge_dims (st : AIState) (cell : Cell) (n : ℤ) :
    (addKnowledge st cell n).height = st.height ∧
    (addKnowledge st cell n).width = st.width := by
  have h := foldl_updateSentence_frame
    (addKnowledgeBase st cell n).knowledge (addKnowledgeBase st cell n)
  exact ⟨h.2.2.1, h.2.2.2⟩

/-- A run of consistent `add_knowledge` calls preserves the soundness
invariant. -/
lemma runGame_inv (M : Finset Cell) (calls : List (Cell × ℤ)) :
    ∀ st : AIState, M ⊆ boardCells st.height st.width → SolverInv M st →
      (∀ p ∈ calls, ConsistentCall st.height st.width M p.1 p.2) →
      SolverInv M (runGame st calls) := by
  induction calls with
  | nil => intro st _ h _; exact h
  | cons a t ih =>
    intro st hM h hc
    unfold runGame
    rw [List.foldl_cons]
    have hd := addKnowledge_dims st a.1 a.2
    exact ih (addKnowledge st a.1 a.2)
      (by rw [hd.1, hd.2]; exact hM)
      (addKnowledge_inv M st a.1 a.2 hM h (hc a (by simp)))
      (fun p hp => by rw [hd.1, hd.2]; exact hc p (by simp [hp]))

/-- Claim C1: on any board configuration (any mine set `M` placed on the
board) and any sequence of moves consistent with it (each revealed cell is an
in-bounds non-mine cell whose reported count is the board's `nearby_mines`),
the global `safes` and `mines` sets are disjoint after every `add_knowledge`
call.  Stated for the final state of an arbitrary consistent call list; every
intermediate state is the final state of a prefix, which is again a consistent
call list. -/
theorem claim_C1 (h w : ℤ) (M : Finset Cell) (hM : M ⊆ boardCells h w)
    (calls : List (Cell × ℤ))
    (hcalls : ∀ p ∈ calls, ConsistentCall h w M p.1 p.2) :
    (runGame (initAI h w) calls).safes ∩ (runGame (initAI h w) calls).mines = ∅ := by
  have hInv := runGame_inv M calls (initAI h w) hM
    ⟨Finset.empty_inter M, Finset.empty_subset M, by intro s hs; cases hs⟩ hcalls
  obtain ⟨hs, hm, _⟩ := hInv
  rw [← Finset.subset_empty]
  intro x hx
  obtain ⟨hxs, hxm⟩ := Finset.mem_inter.mp hx
  have hxM : x ∈ (runGame (initAI h w) calls).safes ∩ M :=
    Finset.mem_inter.mpr ⟨hxs, hm hxm⟩
  rw [hs] at hxM
  exact hxM

/-- Witness for claim C1: the 1×1 board with no mines and the single consistent
call revealing `(0,0)` with count `0`. -/
theorem claim_C1_witness :
    (runGame (initAI 1 1) [(((0 : ℤ), (0 : ℤ)), 0)]).safes ∩
      (runGame (initAI 1 1) [(((0 : ℤ), (0 : ℤ)), 0)]).mines = ∅ :=
  claim_C1 1 1 ∅ (by decide) [(((0 : ℤ), (0 : ℤ)), 0)] (by decide)
